import Mathlib

/-!
Verification development for the content-addressed asset pipeline of the
omni-parser-obsidian repository.  The definitions below are a shallow
embedding of `scripts/asset_deduplicator.py` (classes `AssetDeduplicator`,
`DeduplicationResult`) and of the image-extraction part of
`scripts/transformer.py` (`ContentTransformer._process_images`,
`ContentTransformer._hashed_filename`).

Modelling conventions:
* Python strings are Lean `String`s; character-level work happens on
  `String.data : List Char` (Python indexing/slicing is by code point, as is
  `List Char`).
* File contents are abstracted to their MD5 digest: `AssetDeduplicator._hash_file`
  is total on a readable file and two files are byte-identical iff their digests
  agree (the spec's collision assumption), so an `AssetFile` carries `hash`
  directly.  Fallible I/O is modelled by per-file success flags (`hashOk` for
  the chunked read in `_hash_file`, `unlinkOk` for `Path.unlink`, `ioOk` for
  the read/write of one markdown file): a `False` flag means the corresponding
  Python call raises and the surrounding `except` branch runs.
* Directory walks (`Path.rglob`) are modelled as the list of entries in walk
  order; every modelled entry is a regular file.
-/

/-- Python `str.lower` restricted to the way it is used on file suffixes. -/
def lowerStr (s : String) : String := ⟨s.data.map Char.toLower⟩

/-- Python `pathlib.PurePath.suffix`: the extension of the final path
component: with `i = name.rfind('.')`, the slice `name[i:]` when
`0 < i < len(name) - 1`, else the empty string. -/
def pathSuffix (name : String) : String :=
  let cs := name.data
  match cs.reverse.findIdx? (fun c => c = '.') with
  | none => ""
  | some j =>
    let i := cs.length - 1 - j
    if 0 < i ∧ i < cs.length - 1 then ⟨cs.drop i⟩ else ""

/-- The set `AssetDeduplicator.IMAGE_EXTENSIONS`. -/
def imageExtensions : List String :=
  [".png", ".jpg", ".jpeg", ".gif", ".webp", ".svg", ".bmp"]

/-- The filter of `_hash_all_files`: `file_path.suffix.lower() in IMAGE_EXTENSIONS`
(the `is_file()` conjunct is `True` for every modelled entry). -/
def isImageName (name : String) : Bool :=
  imageExtensions.contains (lowerStr (pathSuffix name))

/-- One file found under the attachment store: its final name, its content
digest, its byte size (`Path.stat().st_size`), and the success flags of the
fallible I/O performed on it (`hashOk`: the chunked read in `_hash_file`;
`unlinkOk`: `Path.unlink` in `_remove_duplicates`). -/
structure AssetFile where
  name : String
  hash : String
  size : Nat
  hashOk : Bool
  unlinkOk : Bool
deriving DecidableEq

/-- One markdown file found under the notes directory: path name, current
text, and whether its `read_text`/`write_text` round trip in
`_update_markdown_links` succeeds. -/
structure MdFile where
  name : String
  content : String
  ioOk : Bool
deriving DecidableEq

/-- The `DeduplicationResult` dataclass. -/
structure DeduplicationResult where
  total_files : Nat := 0
  duplicates_found : Nat := 0
  duplicates_removed : Nat := 0
  bytes_saved : Nat := 0
  files_updated : Nat := 0
  errors : List String := []
deriving DecidableEq

/-- The filesystem state a consolidation run reads and mutates: the
attachment-store entries and the notes-directory markdown files, each in walk
order. -/
structure VaultState where
  assets : List AssetFile
  notes : List MdFile
deriving DecidableEq

/-- The files that survive the guard at the top of the `_hash_all_files` loop
and whose `_hash_file` call succeeds: exactly the files that enter `hash_map`. -/
def okAssets (files : List AssetFile) : List AssetFile :=
  files.filter (fun f => isImageName f.name && f.hashOk)

/-- First-occurrence key order of a `defaultdict` filled during one walk:
each key listed at its first appearance, later repeats dropped. -/
def keysInOrder : List String → List String
  | [] => []
  | h :: t => h :: (keysInOrder t).filter (fun k => decide (k ≠ h))

/-- Model of `AssetDeduplicator._hash_all_files`: group the successfully hashed image
files by digest; keys in first-insertion order, each group in walk order
(`defaultdict(list)` with `append`). -/
def hashAllFiles (files : List AssetFile) : List (String × List AssetFile) :=
  (keysInOrder ((okAssets files).map (fun f => f.hash))).map
    (fun h => (h, (okAssets files).filter (fun f => f.hash == h)))

/-- Model of `AssetDeduplicator._find_duplicates`: the values of the hash map that have
more than one member. -/
def findDuplicates (hashMap : List (String × List AssetFile)) : List (List AssetFile) :=
  (hashMap.map (fun p => p.2)).filter (fun g => decide (1 < g.length))

/-- The sort key of `_build_replacement_map`: Python tuple order on
`(len(p.name), p.name)`, where `p.name ≤ q.name` is code-point lexicographic
order (`listLexLe` below on the character lists). -/
def listLexLe : List Char → List Char → Bool
  | [], _ => true
  | _ :: _, [] => false
  | a :: as, b :: bs => if a = b then listLexLe as bs else decide (a < b)

/-- The call `sorted(group, key=lambda p: (len(p.name), p.name))` compares these keys. -/
def rKey (p q : AssetFile) : Bool :=
  decide (p.name.length < q.name.length) ||
    (p.name.length == q.name.length && listLexLe p.name.data q.name.data)

/-- The propositional form of `rKey`, used to instantiate Mathlib's sorting. -/
def rKeyP (p q : AssetFile) : Prop := rKey p q = true

instance : DecidableRel rKeyP := fun p q => decEq (rKey p q) true

/-- The call `sorted(group, key=lambda p: (len(p.name), p.name))`: a stable sort under
the tuple key. -/
def sortGroup (g : List AssetFile) : List AssetFile := List.insertionSort rKeyP g

/-- The canonical member of a duplicate group: `sorted_group[0]`. -/
def canonicalFile (g : List AssetFile) : Option AssetFile := (sortGroup g).head?

/-- The canonical member's filename. -/
def canonicalName (g : List AssetFile) : Option String :=
  (canonicalFile g).map (fun f => f.name)

/-- Python dict assignment `m[k] = v`: overwrite in place when the key exists,
else append at the end (insertion order preserved). -/
def assocSet (m : List (String × String)) (k v : String) : List (String × String) :=
  match m with
  | [] => [(k, v)]
  | (k', v') :: rest => if k' = k then (k, v) :: rest else (k', v') :: assocSet rest k v

/-- Model of `AssetDeduplicator._build_replacement_map`: for each group sort by
`(len(name), name)`, take the head as canonical, and map every remaining
member's name to the canonical name. -/
def buildReplacementMap (groups : List (List AssetFile)) : List (String × String) :=
  groups.foldl
    (fun m g =>
      match sortGroup g with
      | [] => m
      | c :: rest => rest.foldl (fun m' d => assocSet m' d.name c.name) m)
    []

/-- The keys of a replacement map, `file.name in replacement_map` tests
membership here. -/
def mapKeys (m : List (String × String)) : List String := m.map (fun e => e.1)

/-- The characters of the f-string `f'![[{name}]]'` used on both sides of the
`str.replace` call in `_update_markdown_links`. -/
def embedTok (name : String) : List Char :=
  '!' :: '[' :: '[' :: (name.data ++ [']', ']'])

/-- Python `str.replace(old, new)`: scan left to right, replace each
non-overlapping occurrence of `old`, resume after the inserted `new`.  The
`fuel` argument is only a structural-termination device: every step consumes
at least one character, so any `fuel ≥ length of the text` computes the
replacement (`pyReplace_fuel`); call sites pass the text's length.  (For
`old = []` Python would insert `new` at every boundary; the call sites below
always pass the nonempty literal `![[…]]`, and the model leaves the text
unchanged in that unreachable case.) -/
def pyReplace (old new : List Char) : Nat → List Char → List Char
  | 0, s => s
  | _ + 1, [] => []
  | fuel + 1, c :: rest =>
    if old.isPrefixOf (c :: rest) ∧ old ≠ [] then
      new ++ pyReplace old new fuel ((c :: rest).drop old.length)
    else
      c :: pyReplace old new fuel rest

/-- The `str.replace(f'![[{old}]]', f'![[{new}]]')` step of
`_update_markdown_links`. -/
def embedReplace (old new : String) (s : List Char) : List Char :=
  pyReplace (embedTok old) (embedTok new) s.length s

/-- Matching one pattern character of the regex
`rf'!\[([^\]]*)\]\({old_name}\)'`.  `old_name` is interpolated into the
pattern unescaped, so each of its characters is a regex atom; the model covers
the patterns whose only metacharacter is `'.'` (match any character), which
includes every store filename `<stem>_<hex12>.<ext>` with a metacharacter-free
stem.  A literal character matches only itself. -/
def patCharMatch (p c : Char) : Bool := p = '.' || p = c

/-- Match a one-character-per-atom pattern against a prefix of the text,
returning the remaining text on success. -/
def patMatch : List Char → List Char → Option (List Char)
  | [], s => some s
  | _ :: _, [] => none
  | p :: ps, c :: cs => if patCharMatch p c then patMatch ps cs else none

/-- Try the regex `!\[([^\]]*)\]\(old\)` at the start of the text: literal
`![`, then the greedy `[^\]]*` capture (the maximal run of non-`]`
characters), then `](`, then the interpolated `old` pattern, then `)`.
Returns the captured alt text and the text after the match. -/
def linkMatchAt (old : List Char) : List Char → Option (List Char × List Char)
  | '!' :: '[' :: rest =>
    let alt := rest.takeWhile (fun c => decide (c ≠ ']'))
    match rest.dropWhile (fun c => decide (c ≠ ']')) with
    | ']' :: '(' :: rest2 =>
      match patMatch old rest2 with
      | some (')' :: rest3) => some (alt, rest3)
      | _ => none
    | _ => none
  | _ => none

/-- Python `re.sub(rf'!\[([^\]]*)\]\({old}\)', rf'![\1]({new})', s)`: leftmost
match first, replacement emits literal `![`, the captured alt, `](`, `new`,
`)`, then scanning resumes after the match.  `fuel` is the same
structural-termination device as in `pyReplace`. -/
def pyLinkSub (old new : List Char) : Nat → List Char → List Char
  | 0, s => s
  | _ + 1, [] => []
  | fuel + 1, c :: rest =>
    match linkMatchAt old (c :: rest) with
    | some (alt, rest3) =>
      '!' :: '[' :: (alt ++ ']' :: '(' :: (new ++ ')' :: pyLinkSub old new fuel rest3))
    | none => c :: pyLinkSub old new fuel rest

/-- The `re.sub` step of `_update_markdown_links` for one mapping entry. -/
def linkReplace (old new : String) (s : List Char) : List Char :=
  pyLinkSub old.data new.data s.length s

/-- The body of the `for old_name, new_name in replacement_map.items()` loop
for one entry: the `str.replace` on the embed token, then the `re.sub` on the
linked-image form. -/
def applyEntry (s : List Char) (e : String × String) : List Char :=
  linkReplace e.1 e.2 (embedReplace e.1 e.2 s)

/-- The whole per-document rewrite of `_update_markdown_links`: fold the
replacement map in insertion order over the document text. -/
def updateDoc (m : List (String × String)) (content : String) : String :=
  ⟨m.foldl applyEntry content.data⟩

/-- Effect of `_update_markdown_links` on one markdown file: when its
read/write succeeds its text becomes `updateDoc`; a failing file is logged and
left unchanged. -/
def rewriteNote (m : List (String × String)) (n : MdFile) : MdFile :=
  if n.ioOk then { n with content := updateDoc m n.content } else n

/-- The `updated_files` set of `_update_markdown_links`: the files whose
read/write succeeded and whose text changed.  `rglob` yields each path once,
so the set's size is this list's length. -/
def updatedNotes (m : List (String × String)) (notes : List MdFile) : List MdFile :=
  notes.filter (fun n => n.ioOk && decide (updateDoc m n.content ≠ n.content))

/-- The `files_to_remove` comprehension of `_remove_duplicates`: every group
member whose name is a key of the replacement map. -/
def filesToRemove (groups : List (List AssetFile)) (m : List (String × String)) :
    List AssetFile :=
  groups.flatMap (fun g => g.filter (fun f => (mapKeys m).contains f.name))

/-- The `(bytes_saved, files_removed)` pair returned by `_remove_duplicates`:
only the files whose `unlink` succeeds are counted; a failing `unlink` is
logged and skipped. -/
def removeDuplicates (groups : List (List AssetFile)) (m : List (String × String)) :
    Nat × Nat :=
  let removed := (filesToRemove groups m).filter (fun f => f.unlinkOk)
  ((removed.map (fun f => f.size)).sum, removed.length)

/-- The attachment store after `_remove_duplicates`: every file whose `unlink`
was attempted and succeeded is gone. -/
def removeFromStore (assets : List AssetFile) (groups : List (List AssetFile))
    (m : List (String × String)) : List AssetFile :=
  assets.filter (fun f => !(decide (f ∈ filesToRemove groups m) && f.unlinkOk))

/-- Model of `AssetDeduplicator.deduplicate_directory`: hash the store, count the
files, find the duplicate groups, return early when there are none, else
build the replacement map, rewrite the notes, delete the superseded files and
fill in the report.  Nothing in the modelled run reaches the top-level
`except` handler, so `errors` stays `[]` (the per-item failures above are
logged, not accumulated). -/
def deduplicateDirectory (s : VaultState) : VaultState × DeduplicationResult :=
  let hm := hashAllFiles s.assets
  let total := (hm.map (fun p => p.2.length)).sum
  let groups := findDuplicates hm
  let found := (groups.map (fun g => g.length - 1)).sum
  if groups.isEmpty then
    (s, { total_files := total, duplicates_found := found })
  else
    let m := buildReplacementMap groups
    let notes' := s.notes.map (rewriteNote m)
    let updated := updatedNotes m s.notes
    let rd := removeDuplicates groups m
    ({ assets := removeFromStore s.assets groups m, notes := notes' },
     { total_files := total
       duplicates_found := found
       duplicates_removed := rd.2
       bytes_saved := rd.1
       files_updated := updated.length
       errors := [] })

/-- Model of `ContentTransformer._hashed_filename`: `f"{base}_{md5(data).hexdigest()[:12]}{ext}"`,
with the digest abstracted to its hex string. -/
def hashedFilename (base : String) (hashHex : String) (ext : String) : String :=
  base ++ "_" ++ (⟨hashHex.data.take 12⟩ : String) ++ ext

/-- One `<img>` tag's `src` as branched on by `_process_images`: empty, an
inline `data:image` URI (with the success of `_decode_base64`, the digest of
the decoded bytes and the extension `_image_extension` derives), a remote
`http(s)` URL (with the success of the bounded `requests.get`, the digest of
the fetched bytes and the extension `_guess_extension` derives), or any other
src, which no branch matches. -/
inductive ImgSrc where
  | empty
  | dataUri (decodeOk : Bool) (hash : String) (ext : String)
  | remote (fetchOk : Bool) (hash : String) (ext : String)
  | other
deriving DecidableEq

/-- The state threaded through the `_process_images` loop: the attachment
store (set of names present), the write calls issued (`write_bytes`, in
order), and the counters/warnings the method returns. -/
structure ProcState where
  store : List String
  writes : List String
  extracted : Nat
  external : Nat
  warnings : List String
deriving DecidableEq

/-- One iteration of the `for img in soup.find_all("img")` loop of
`_process_images`.  On each success path the bytes are written
unconditionally (`(attachments_dir / name).write_bytes(data)` has no
existence guard); writing a name already in the store overwrites it with the
same bytes. -/
def processImage (base : String) (downloadExternal : Bool) (st : ProcState)
    (img : ImgSrc) : ProcState :=
  match img with
  | .empty => st
  | .other => st
  | .dataUri ok h ext =>
    if ok then
      let name := hashedFilename base h ext
      { st with
        store := if st.store.contains name then st.store else st.store ++ [name]
        writes := st.writes ++ [name]
        extracted := st.extracted + 1 }
    else
      { st with warnings := st.warnings ++ ["Failed to decode base64 image"] }
  | .remote ok h ext =>
    if downloadExternal then
      if ok then
        let name := hashedFilename base h ext
        { st with
          store := if st.store.contains name then st.store else st.store ++ [name]
          writes := st.writes ++ [name]
          external := st.external + 1 }
      else
        { st with
          warnings := st.warnings ++ ["Failed to download image"]
          external := st.external + 1 }
    else st

/-- The whole `_process_images` loop over the document's image tags. -/
def processImages (base : String) (downloadExternal : Bool) (imgs : List ImgSrc)
    (store : List String) : ProcState :=
  imgs.foldl (processImage base downloadExternal)
    { store := store, writes := [], extracted := 0, external := 0, warnings := [] }

/-- The intermediate on-disk contents observable when the process crashes
during the `md_file.write_text(content)` call of `_update_markdown_links`:
`Path.write_text` opens the file with mode `w`, which truncates it, and then
writes the new text, so the file holds successively longer prefixes of the
new text (the empty string first). -/
def writeTextCrashStates (newText : String) : List String :=
  (List.range (newText.length + 1)).map (fun k => (⟨newText.data.take k⟩ : String))

/-- The intermediate contents under a write-to-temporary-then-rename scheme:
the original text until the atomic rename, the new text after it. -/
def atomicReplaceCrashStates (oldText newText : String) : List String :=
  [oldText, newText]

/-! ### Basic lemmas about the embedded string operations -/

theorem strEq_of_data {s t : String} (h : s.data = t.data) : s = t := by
  cases s
  cases t
  exact congrArg String.mk h

theorem pyReplace_fuel (old new : List Char) :
    ∀ (f g : Nat) (s : List Char), s.length ≤ f → s.length ≤ g →
      pyReplace old new f s = pyReplace old new g s := by
  intro f
  induction f with
  | zero =>
    intro g s hf _
    have hs : s = [] := List.length_eq_zero.mp (Nat.le_zero.mp hf)
    subst hs
    cases g <;> simp [pyReplace]
  | succ f ih =>
    intro g s hf hg
    cases s with
    | nil => cases g <;> simp [pyReplace]
    | cons c rest =>
      cases g with
      | zero => simp at hg
      | succ g =>
        have hrf : rest.length ≤ f := by simp at hf; omega
        have hrg : rest.length ≤ g := by simp at hg; omega
        simp only [pyReplace]
        by_cases h : old.isPrefixOf (c :: rest) ∧ old ≠ []
        · rw [if_pos h, if_pos h]
          have hold : 1 ≤ old.length := by
            cases old with
            | nil => exact absurd rfl h.2
            | cons _ _ => simp
          have hd : ((c :: rest).drop old.length).length ≤ f := by
            simp [List.length_drop]
            omega
          have hd' : ((c :: rest).drop old.length).length ≤ g := by
            simp [List.length_drop]
            omega
          rw [ih _ _ hd hd']
        · rw [if_neg h, if_neg h, ih _ _ hrf hrg]

theorem pyReplace_nomatch (old new : List Char) :
    ∀ (f : Nat) (s : List Char),
      (∀ i, ¬ (old.isPrefixOf (s.drop i) = true)) → pyReplace old new f s = s := by
  intro f
  induction f with
  | zero => intro s _; simp [pyReplace]
  | succ f ih =>
    intro s h
    cases s with
    | nil => simp [pyReplace]
    | cons c rest =>
      have h0 : ¬ (old.isPrefixOf (c :: rest) = true) := by simpa using h 0
      simp only [pyReplace]
      rw [if_neg (fun hc => h0 hc.1)]
      congr 1
      exact ih rest (fun i => by simpa using h (i + 1))

theorem pyReplace_split (old new : List Char) (hold : old ≠ []) :
    ∀ (pre : List Char) (post : List Char) (f : Nat),
      (pre ++ old ++ post).length ≤ f →
      (∀ i, i < pre.length → ¬ (old.isPrefixOf ((pre ++ old ++ post).drop i) = true)) →
      pyReplace old new f (pre ++ old ++ post)
        = pre ++ new ++ pyReplace old new post.length post := by
  intro pre
  induction pre with
  | nil =>
    intro post f hf _
    obtain ⟨o, old', rfl⟩ : ∃ o old', old = o :: old' := by
      cases old with
      | nil => exact absurd rfl hold
      | cons o old' => exact ⟨o, old', rfl⟩
    cases f with
    | zero => simp at hf
    | succ f =>
      have hshape : ([] : List Char) ++ (o :: old') ++ post = o :: (old' ++ post) := by simp
      rw [hshape]
      simp only [pyReplace]
      rw [if_pos ?hc]
      case hc =>
        constructor
        · exact List.isPrefixOf_iff_prefix.mpr ⟨post, by simp⟩
        · simp
      have hdrop : (o :: (old' ++ post)).drop (o :: old').length = post := by
        have := List.drop_left (o :: old') post
        simp only [List.cons_append] at this
        exact this
      rw [hdrop]
      have hfuel : post.length ≤ f := by
        rw [hshape] at hf
        simp at hf
        omega
      rw [pyReplace_fuel _ _ _ _ _ hfuel (le_refl _)]
      simp
  | cons p pre' ih =>
    intro post f hf hpre
    have hshape : (p :: pre') ++ old ++ post = p :: (pre' ++ old ++ post) := by simp
    rw [hshape]
    cases f with
    | zero => rw [hshape] at hf; simp at hf
    | succ f =>
      simp only [pyReplace]
      rw [if_neg ?hn]
      case hn =>
        intro hc
        have h0 := hpre 0 (by simp)
        rw [List.drop_zero, hshape] at h0
        exact h0 hc.1
      rw [ih post f ?_ ?_]
      · simp
      · rw [hshape] at hf
        simp at hf
        simp
        omega
      · intro i hi
        have := hpre (i + 1) (by simp; omega)
        rw [hshape] at this
        simpa using this

theorem noMatch_of_noBang (old : String) (s : List Char) (hs : '!' ∉ s) :
    ∀ i, ¬ ((embedTok old).isPrefixOf (s.drop i) = true) := by
  intro i hp
  obtain ⟨t, ht⟩ := List.isPrefixOf_iff_prefix.mp hp
  have hmem : '!' ∈ s.drop i := by
    rw [← ht]
    simp [embedTok]
  exact hs (List.drop_subset _ _ hmem)

/-! ### Lemmas about the canonical-selection sort key -/

theorem listLexLe_refl : ∀ a : List Char, listLexLe a a = true := by
  intro a
  induction a with
  | nil => rfl
  | cons x xs ih => simp [listLexLe, ih]

theorem listLexLe_total : ∀ a b : List Char, listLexLe a b = true ∨ listLexLe b a = true := by
  intro a
  induction a with
  | nil => intro b; left; rfl
  | cons x xs ih =>
    intro b
    cases b with
    | nil => right; rfl
    | cons y ys =>
      by_cases hxy : x = y
      · subst hxy
        simpa [listLexLe] using ih ys
      · rcases lt_or_gt_of_ne hxy with h | h
        · left; simp [listLexLe, hxy, h]
        · right; simp [listLexLe, Ne.symm hxy, h]

theorem listLexLe_trans :
    ∀ a b c : List Char, listLexLe a b = true → listLexLe b c = true →
      listLexLe a c = true := by
  intro a
  induction a with
  | nil => intro b c _ _; rfl
  | cons x xs ih =>
    intro b c hab hbc
    cases b with
    | nil => simp [listLexLe] at hab
    | cons y ys =>
      cases c with
      | nil => simp [listLexLe] at hbc
      | cons z zs =>
        by_cases hxy : x = y <;> by_cases hyz : y = z
        · subst hxy; subst hyz
          simp [listLexLe] at hab hbc ⊢
          exact ih ys zs hab hbc
        · subst hxy
          simp [listLexLe, hyz] at hbc
          simp [listLexLe, hyz, hbc]
        · subst hyz
          simp [listLexLe, hxy] at hab
          simp [listLexLe, hxy, hab]
        · simp [listLexLe, hxy, hyz] at hab hbc
          have hxz : x < z := lt_trans hab hbc
          simp [listLexLe, ne_of_lt hxz, hxz]

theorem listLexLe_antisymm :
    ∀ a b : List Char, listLexLe a b = true → listLexLe b a = true → a = b := by
  intro a
  induction a with
  | nil =>
    intro b _ hba
    cases b with
    | nil => rfl
    | cons y ys => simp [listLexLe] at hba
  | cons x xs ih =>
    intro b hab hba
    cases b with
    | nil => simp [listLexLe] at hab
    | cons y ys =>
      by_cases hxy : x = y
      · subst hxy
        simp [listLexLe] at hab hba
        rw [ih ys hab hba]
      · simp [listLexLe, hxy, Ne.symm hxy] at hab hba
        exact absurd hba (lt_asymm hab)

theorem rKey_refl (p : AssetFile) : rKey p p = true := by
  simp [rKey, listLexLe_refl]

theorem rKey_total (p q : AssetFile) : rKey p q = true ∨ rKey q p = true := by
  simp only [rKey, Bool.or_eq_true, Bool.and_eq_true, decide_eq_true_eq, beq_iff_eq]
  rcases Nat.lt_trichotomy p.name.length q.name.length with h | h | h
  · exact Or.inl (Or.inl h)
  · rcases listLexLe_total p.name.data q.name.data with hl | hl
    · exact Or.inl (Or.inr ⟨h, hl⟩)
    · exact Or.inr (Or.inr ⟨h.symm, hl⟩)
  · exact Or.inr (Or.inl h)

theorem rKey_trans (p q r : AssetFile) (hpq : rKey p q = true) (hqr : rKey q r = true) :
    rKey p r = true := by
  simp only [rKey, Bool.or_eq_true, Bool.and_eq_true, decide_eq_true_eq, beq_iff_eq]
    at hpq hqr ⊢
  rcases hpq with h1 | ⟨h1, h1'⟩ <;> rcases hqr with h2 | ⟨h2, h2'⟩
  · exact Or.inl (by omega)
  · exact Or.inl (by omega)
  · exact Or.inl (by omega)
  · exact Or.inr ⟨by omega, listLexLe_trans _ _ _ h1' h2'⟩

theorem rKey_name_antisymm (p q : AssetFile) (hpq : rKey p q = true)
    (hqp : rKey q p = true) : p.name = q.name := by
  simp only [rKey, Bool.or_eq_true, Bool.and_eq_true, decide_eq_true_eq, beq_iff_eq]
    at hpq hqp
  rcases hpq with h1 | ⟨h1, h1'⟩ <;> rcases hqp with h2 | ⟨h2, h2'⟩
  · exact absurd h2 (by omega)
  · exact absurd h1 (by omega)
  · exact absurd h2 (by omega)
  · exact strEq_of_data (listLexLe_antisymm _ _ h1' h2')

instance : IsTotal AssetFile rKeyP := ⟨fun p q => rKey_total p q⟩

instance : IsTrans AssetFile rKeyP := ⟨fun p q r => rKey_trans p q r⟩

theorem sortGroup_perm (g : List AssetFile) : (sortGroup g).Perm g :=
  List.perm_insertionSort _ _

theorem sortGroup_sorted (g : List AssetFile) : List.Sorted rKeyP (sortGroup g) :=
  List.sorted_insertionSort _ _

theorem sortGroup_head_min (g : List AssetFile) (c : AssetFile) (t : List AssetFile)
    (h : sortGroup g = c :: t) : ∀ x ∈ g, rKey c x = true := by
  intro x hx
  have hx' : x ∈ c :: t := by
    rw [← h]
    exact (sortGroup_perm g).mem_iff.mpr hx
  rcases List.mem_cons.mp hx' with rfl | hx'
  · exact rKey_refl x
  · have hs := sortGroup_sorted g
    rw [h] at hs
    exact (List.sorted_cons.mp hs).1 x hx'

/-! ### Lemmas about the hash-grouping phase -/

theorem mem_keysInOrder : ∀ (l : List String) (x : String), x ∈ keysInOrder l ↔ x ∈ l := by
  intro l
  induction l with
  | nil => intro x; simp [keysInOrder]
  | cons h t ih =>
    intro x
    simp only [keysInOrder, List.mem_cons, List.mem_filter, decide_eq_true_eq]
    constructor
    · rintro (rfl | ⟨hx, _⟩)
      · exact Or.inl rfl
      · exact Or.inr ((ih x).mp hx)
    · rintro (rfl | hx)
      · exact Or.inl rfl
      · by_cases hxh : x = h
        · exact Or.inl hxh
        · exact Or.inr ⟨(ih x).mpr hx, hxh⟩

theorem nodup_keysInOrder : ∀ l : List String, (keysInOrder l).Nodup := by
  intro l
  induction l with
  | nil => simp [keysInOrder]
  | cons h t ih =>
    simp only [keysInOrder]
    refine List.nodup_cons.mpr ⟨?_, List.Nodup.filter _ ih⟩
    intro hmem
    have := (List.mem_filter.mp hmem).2
    simp at this

theorem mem_findDuplicates {files : List AssetFile} {g : List AssetFile}
    (hg : g ∈ findDuplicates (hashAllFiles files)) :
    ∃ hh, g = (okAssets files).filter (fun f => f.hash == hh) ∧ 1 < g.length ∧
      hh ∈ keysInOrder ((okAssets files).map (fun f => f.hash)) := by
  simp only [findDuplicates, List.mem_filter, decide_eq_true_eq] at hg
  obtain ⟨hmem, hlen⟩ := hg
  simp only [hashAllFiles, List.map_map, Function.comp, List.mem_map] at hmem
  obtain ⟨hh, hhmem, rfl⟩ := hmem
  exact ⟨hh, rfl, hlen, hhmem⟩

theorem filter_mem_findDuplicates {files : List AssetFile} {hh : String}
    (hmem : hh ∈ keysInOrder ((okAssets files).map (fun f => f.hash)))
    (hlen : 1 < ((okAssets files).filter (fun f => f.hash == hh)).length) :
    (okAssets files).filter (fun f => f.hash == hh) ∈ findDuplicates (hashAllFiles files) := by
  simp only [findDuplicates, List.mem_filter, decide_eq_true_eq]
  refine ⟨?_, hlen⟩
  simp only [hashAllFiles, List.map_map, Function.comp, List.mem_map]
  exact ⟨hh, hmem, rfl⟩

theorem nodup_of_distinct_names {l : List AssetFile}
    (h : l.Pairwise (fun a b => a.name ≠ b.name)) : l.Nodup :=
  h.imp (fun hne heq => hne (by rw [heq]))

theorem exists_two_of_one_lt {α : Type} {l : List α} (h : 1 < l.length) :
    ∃ x y t, l = x :: y :: t := by
  match l with
  | [] => simp at h
  | [x] => simp at h
  | x :: y :: t => exact ⟨x, y, t, rfl⟩

theorem one_lt_length_of_two {α : Type} {l : List α} {a b : α} (ha : a ∈ l) (hb : b ∈ l)
    (hne : a ≠ b) : 1 < l.length := by
  match l with
  | [] => simp at ha
  | [x] =>
    simp at ha hb
    exact absurd (ha.trans hb.symm) hne
  | x :: y :: t => simp

/-! ### Lemmas about the replacement map -/

theorem mem_assocSet {m : List (String × String)} {k v : String} {e : String × String}
    (he : e ∈ assocSet m k v) : e ∈ m ∨ e = (k, v) := by
  induction m with
  | nil => simpa [assocSet] using he
  | cons e' rest ih =>
    obtain ⟨ek, ev⟩ := e'
    by_cases h : ek = k
    · subst h
      simp only [assocSet, if_pos rfl] at he
      rcases List.mem_cons.mp he with rfl | hm
      · exact Or.inr rfl
      · exact Or.inl (List.mem_cons.mpr (Or.inr hm))
    · simp only [assocSet, if_neg h] at he
      rcases List.mem_cons.mp he with rfl | hm
      · exact Or.inl (List.mem_cons.mpr (Or.inl rfl))
      · rcases ih hm with h1 | h1
        · exact Or.inl (List.mem_cons.mpr (Or.inr h1))
        · exact Or.inr h1

theorem mem_mapKeys_assocSet {m : List (String × String)} {k v k' : String} :
    k' ∈ mapKeys (assocSet m k v) ↔ k' = k ∨ k' ∈ mapKeys m := by
  induction m with
  | nil => simp [assocSet, mapKeys]
  | cons e rest ih =>
    obtain ⟨ek, ev⟩ := e
    by_cases h : ek = k
    · subst h
      simp [assocSet, mapKeys]
    · simp only [assocSet, if_neg h, mapKeys, List.map_cons, List.mem_cons] at ih ⊢
      rw [ih]
      tauto

theorem innerFold_mem (cname : String) :
    ∀ (rest : List AssetFile) (m0 : List (String × String)) (e : String × String),
      e ∈ rest.foldl (fun m' d => assocSet m' d.name cname) m0 →
      e ∈ m0 ∨ ∃ d ∈ rest, e = (d.name, cname) := by
  intro rest
  induction rest with
  | nil => intro m0 e he; exact Or.inl he
  | cons d rest ih =>
    intro m0 e he
    simp only [List.foldl_cons] at he
    rcases ih _ _ he with h1 | h1
    · rcases mem_assocSet h1 with h2 | h2
      · exact Or.inl h2
      · exact Or.inr ⟨d, by simp, h2⟩
    · obtain ⟨d', hd', he'⟩ := h1
      exact Or.inr ⟨d', by simp [hd'], he'⟩

theorem innerFold_keys_mono (cname k' : String) :
    ∀ (rest : List AssetFile) (m0 : List (String × String)), k' ∈ mapKeys m0 →
      k' ∈ mapKeys (rest.foldl (fun m' d => assocSet m' d.name cname) m0) := by
  intro rest
  induction rest with
  | nil => intro m0 h; exact h
  | cons d rest ih =>
    intro m0 h
    simp only [List.foldl_cons]
    exact ih _ (mem_mapKeys_assocSet.mpr (Or.inr h))

theorem innerFold_keys_of_mem (cname : String) :
    ∀ (rest : List AssetFile) (m0 : List (String × String)) (d : AssetFile), d ∈ rest →
      d.name ∈ mapKeys (rest.foldl (fun m' d => assocSet m' d.name cname) m0) := by
  intro rest
  induction rest with
  | nil => intro m0 d h; simp at h
  | cons d0 rest ih =>
    intro m0 d h
    simp only [List.foldl_cons]
    rcases List.mem_cons.mp h with rfl | h
    · exact innerFold_keys_mono _ _ _ _ (mem_mapKeys_assocSet.mpr (Or.inl rfl))
    · exact ih _ d h

theorem buildMap_mem {groups : List (List AssetFile)} {e : String × String}
    (he : e ∈ buildReplacementMap groups) :
    ∃ g ∈ groups, ∃ c t, sortGroup g = c :: t ∧ ∃ d ∈ t, e = (d.name, c.name) := by
  suffices h : ∀ (gs : List (List AssetFile)) (m0 : List (String × String)),
      e ∈ gs.foldl
        (fun m g =>
          match sortGroup g with
          | [] => m
          | c :: rest => rest.foldl (fun m' d => assocSet m' d.name c.name) m) m0 →
      e ∈ m0 ∨ ∃ g ∈ gs, ∃ c t, sortGroup g = c :: t ∧ ∃ d ∈ t, e = (d.name, c.name) by
    rcases h _ _ he with h1 | h1
    · simp at h1
    · exact h1
  intro gs
  induction gs with
  | nil => intro m0 h; exact Or.inl h
  | cons g gs ih =>
    intro m0 h
    simp only [List.foldl_cons] at h
    rcases ih _ h with h1 | h1
    · cases hs : sortGroup g with
      | nil =>
        rw [hs] at h1
        exact Or.inl h1
      | cons c t =>
        rw [hs] at h1
        rcases innerFold_mem _ _ _ _ h1 with h2 | h2
        · exact Or.inl h2
        · obtain ⟨d, hd, he'⟩ := h2
          exact Or.inr ⟨g, by simp, c, t, hs, d, hd, he'⟩
    · obtain ⟨g', hg', rest⟩ := h1
      exact Or.inr ⟨g', by simp [hg'], rest⟩

theorem buildMap_keys_mono (k' : String) :
    ∀ (gs : List (List AssetFile)) (m0 : List (String × String)), k' ∈ mapKeys m0 →
      k' ∈ mapKeys (gs.foldl
        (fun m g =>
          match sortGroup g with
          | [] => m
          | c :: rest => rest.foldl (fun m' d => assocSet m' d.name c.name) m) m0) := by
  intro gs
  induction gs with
  | nil => intro m0 h; exact h
  | cons g gs ih =>
    intro m0 h
    simp only [List.foldl_cons]
    apply ih
    cases hs : sortGroup g with
    | nil => exact h
    | cons c t => exact innerFold_keys_mono _ _ _ _ h

theorem buildMap_keys_of_tail_mem {groups : List (List AssetFile)} {g : List AssetFile}
    (hg : g ∈ groups) {c : AssetFile} {t : List AssetFile} (hsort : sortGroup g = c :: t)
    {d : AssetFile} (hd : d ∈ t) :
    d.name ∈ mapKeys (buildReplacementMap groups) := by
  suffices h : ∀ (gs : List (List AssetFile)) (m0 : List (String × String)), g ∈ gs →
      d.name ∈ mapKeys (gs.foldl
        (fun m g' =>
          match sortGroup g' with
          | [] => m
          | c' :: rest => rest.foldl (fun m' d' => assocSet m' d'.name c'.name) m) m0) by
    exact h _ _ hg
  intro gs
  induction gs with
  | nil => intro m0 h; simp at h
  | cons g0 gs ih =>
    intro m0 h
    simp only [List.foldl_cons]
    rcases List.mem_cons.mp h with rfl | h
    · apply buildMap_keys_mono
      rw [hsort]
      exact innerFold_keys_of_mem _ _ _ _ hd
    · exact ih _ h

theorem mem_buildMap_keys {groups : List (List AssetFile)} {k : String}
    (hk : k ∈ mapKeys (buildReplacementMap groups)) :
    ∃ g ∈ groups, ∃ c t, sortGroup g = c :: t ∧ ∃ d ∈ t, d.name = k := by
  simp only [mapKeys, List.mem_map] at hk
  obtain ⟨e, he, hk⟩ := hk
  obtain ⟨g, hg, c, t, hsort, d, hd, he'⟩ := buildMap_mem he
  refine ⟨g, hg, c, t, hsort, d, hd, ?_⟩
  rw [← hk, he']

theorem contains_eq_true_iff {l : List String} {a : String} : l.contains a = true ↔ a ∈ l := by
  simp [List.contains, List.elem_iff]

theorem mem_filesToRemove {groups : List (List AssetFile)} {m : List (String × String)}
    {f : AssetFile} :
    f ∈ filesToRemove groups m ↔ ∃ g ∈ groups, f ∈ g ∧ f.name ∈ mapKeys m := by
  simp only [filesToRemove, List.mem_flatMap, List.mem_filter, contains_eq_true_iff]

/-! ### Lemmas about a whole consolidation run -/

theorem dedup_empty (s : VaultState) (h : findDuplicates (hashAllFiles s.assets) = []) :
    deduplicateDirectory s =
      (s, { total_files := ((hashAllFiles s.assets).map (fun p => p.2.length)).sum,
            duplicates_found := 0 }) := by
  simp [deduplicateDirectory, h]

theorem dedup_assets_nonempty (s : VaultState)
    (h : findDuplicates (hashAllFiles s.assets) ≠ []) :
    (deduplicateDirectory s).1.assets =
      removeFromStore s.assets (findDuplicates (hashAllFiles s.assets))
        (buildReplacementMap (findDuplicates (hashAllFiles s.assets))) := by
  have hne : (findDuplicates (hashAllFiles s.assets)).isEmpty = false := by
    cases hh : (findDuplicates (hashAllFiles s.assets)).isEmpty
    · rfl
    · exact absurd (List.isEmpty_iff.mp hh) h
  simp [deduplicateDirectory, hne]

theorem dedup_zero_of_no_groups (s : VaultState)
    (h : findDuplicates (hashAllFiles s.assets) = []) :
    (deduplicateDirectory s).2.duplicates_removed = 0 ∧
      (deduplicateDirectory s).2.files_updated = 0 := by
  rw [dedup_empty s h]
  exact ⟨rfl, rfl⟩

theorem dedup_total (s : VaultState) :
    (deduplicateDirectory s).2.total_files
      = ((hashAllFiles s.assets).map (fun p => p.2.length)).sum := by
  cases h : (findDuplicates (hashAllFiles s.assets)).isEmpty <;>
    simp [deduplicateDirectory, h]

theorem sum_filter_lengths :
    ∀ (ks : List String) (l : List AssetFile), ks.Nodup → (∀ f ∈ l, f.hash ∈ ks) →
      ((ks.map (fun hh => (l.filter (fun f => f.hash == hh)).length)).sum = l.length) := by
  intro ks
  induction ks with
  | nil =>
    intro l _ hcov
    have hl : l = [] := by
      cases l with
      | nil => rfl
      | cons x t => exact absurd (hcov x (by simp)) (by simp)
    simp [hl]
  | cons k ks ih =>
    intro l hnd hcov
    simp only [List.map_cons, List.sum_cons]
    have hk : k ∉ ks := (List.nodup_cons.mp hnd).1
    have hnd' := (List.nodup_cons.mp hnd).2
    have hrest : ∀ hh ∈ ks, (l.filter (fun f => f.hash == hh)).length
        = (((l.filter (fun f => !(f.hash == k))).filter (fun f => f.hash == hh)).length) := by
      intro hh hhk
      have hne : hh ≠ k := fun he => hk (he ▸ hhk)
      rw [List.filter_filter]
      congr 1
      apply List.filter_congr
      intro f _
      cases hb : (f.hash == hh) with
      | false => simp [hb]
      | true =>
        have hfh : f.hash = hh := by simpa using hb
        have : (f.hash == k) = false := by simp [hfh, hne]
        simp [hb, this]
    rw [List.map_congr_left hrest]
    rw [ih (l.filter (fun f => !(f.hash == k))) hnd' ?_]
    · have hperm := (List.filter_append_perm (fun f => f.hash == k) l).length_eq
      simp only [List.length_append] at hperm
      omega
    · intro f hf
      rcases List.mem_cons.mp (hcov f (List.mem_of_mem_filter hf)) with h | h
      · have := (List.mem_filter.mp hf).2
        simp [h] at this
      · exact h

theorem total_files_eq (files : List AssetFile) :
    ((hashAllFiles files).map (fun p => p.2.length)).sum = (okAssets files).length := by
  simp only [hashAllFiles, List.map_map, Function.comp]
  exact sum_filter_lengths _ _ (nodup_keysInOrder _)
    (fun f hf => (mem_keysInOrder _ _).mpr (List.mem_map.mpr ⟨f, hf, rfl⟩))

theorem findDuplicates_eq_nil (files : List AssetFile)
    (hone : ∀ f g, f ∈ okAssets files → g ∈ okAssets files → f.hash = g.hash → f = g)
    (hnodup : files.Nodup) :
    findDuplicates (hashAllFiles files) = [] := by
  apply List.filter_eq_nil_iff.mpr
  intro g hg
  simp only [hashAllFiles, List.map_map, Function.comp, List.mem_map] at hg
  obtain ⟨hh, _, rfl⟩ := hg
  simp only [decide_eq_true_eq, not_lt]
  by_contra hlt
  push_neg at hlt
  obtain ⟨x, y, t, hL⟩ := exists_two_of_one_lt hlt
  have hnl : ((okAssets files).filter (fun f => f.hash == hh)).Nodup :=
    List.Nodup.sublist ((List.filter_sublist _).trans (List.filter_sublist _)) hnodup
  rw [hL] at hnl
  have hxy : x ≠ y := by
    intro he
    exact (List.nodup_cons.mp hnl).1 (he ▸ List.mem_cons_self y t)
  have hx : x ∈ (okAssets files).filter (fun f => f.hash == hh) := by
    rw [hL]; simp
  have hy : y ∈ (okAssets files).filter (fun f => f.hash == hh) := by
    rw [hL]; simp
  have hxh : x.hash = hh := by simpa using (List.mem_filter.mp hx).2
  have hyh : y.hash = hh := by simpa using (List.mem_filter.mp hy).2
  exact hxy (hone x y (List.mem_of_mem_filter hx) (List.mem_of_mem_filter hy)
    (hxh.trans hyh.symm))

theorem survivor_is_canonical {assets : List AssetFile}
    (hunlink : ∀ f ∈ assets, f.unlinkOk = true)
    {f g : AssetFile}
    (hf : f ∈ okAssets (removeFromStore assets (findDuplicates (hashAllFiles assets))
      (buildReplacementMap (findDuplicates (hashAllFiles assets)))))
    (hg : g ∈ okAssets (removeFromStore assets (findDuplicates (hashAllFiles assets))
      (buildReplacementMap (findDuplicates (hashAllFiles assets)))))
    (hhash : f.hash = g.hash) : f = g := by
  by_cases hfg : f = g
  · exact hfg
  · exfalso
    -- both survived the deletion pass, so neither is in filesToRemove
    have hsurv : ∀ x : AssetFile,
        x ∈ okAssets (removeFromStore assets (findDuplicates (hashAllFiles assets))
          (buildReplacementMap (findDuplicates (hashAllFiles assets)))) →
        x ∈ okAssets assets ∧
          x ∉ filesToRemove (findDuplicates (hashAllFiles assets))
            (buildReplacementMap (findDuplicates (hashAllFiles assets))) := by
      intro x hx
      have hx1 := List.mem_filter.mp hx
      have hx2 := List.mem_filter.mp hx1.1
      refine ⟨List.mem_filter.mpr ⟨hx2.1, hx1.2⟩, ?_⟩
      intro hmem
      have := hx2.2
      simp only [Bool.not_eq_true', Bool.and_eq_false_iff, decide_eq_false_iff_not] at this
      rcases this with h | h
      · exact h hmem
      · rw [hunlink x hx2.1] at h
        simp at h
    obtain ⟨hfok, hfrem⟩ := hsurv f hf
    obtain ⟨hgok, hgrem⟩ := hsurv g hg
    -- f and g lie in the same duplicate group of the first run
    have hGlen : 1 < ((okAssets assets).filter (fun x => x.hash == f.hash)).length := by
      apply one_lt_length_of_two (a := f) (b := g) _ _ hfg
      · exact List.mem_filter.mpr ⟨hfok, by simp⟩
      · exact List.mem_filter.mpr ⟨hgok, by simp [hhash]⟩
    have hGmem : (okAssets assets).filter (fun x => x.hash == f.hash)
        ∈ findDuplicates (hashAllFiles assets) := by
      apply filter_mem_findDuplicates _ hGlen
      exact (mem_keysInOrder _ _).mpr (List.mem_map.mpr ⟨f, hfok, rfl⟩)
    obtain ⟨c, t, hsort⟩ : ∃ c t,
        sortGroup ((okAssets assets).filter (fun x => x.hash == f.hash)) = c :: t := by
      cases hs : sortGroup ((okAssets assets).filter (fun x => x.hash == f.hash)) with
      | nil =>
        have hp := (sortGroup_perm ((okAssets assets).filter (fun x => x.hash == f.hash))).length_eq
        rw [hs] at hp
        simp at hp
        omega
      | cons c t => exact ⟨c, t, rfl⟩
    -- a group member that survived must be the head of the sorted group
    have hhead : ∀ x : AssetFile,
        x ∈ (okAssets assets).filter (fun y => y.hash == f.hash) →
        x ∉ filesToRemove (findDuplicates (hashAllFiles assets))
          (buildReplacementMap (findDuplicates (hashAllFiles assets))) → x = c := by
      intro x hxG hxrem
      have hxs : x ∈ c :: t := by
        rw [← hsort]
        exact (sortGroup_perm _).mem_iff.mpr hxG
      rcases List.mem_cons.mp hxs with rfl | hxt
      · rfl
      · exfalso
        apply hxrem
        apply mem_filesToRemove.mpr
        exact ⟨_, hGmem, hxG, buildMap_keys_of_tail_mem hGmem hsort hxt⟩
    have hfc : f = c := hhead f (List.mem_filter.mpr ⟨hfok, by simp⟩) hfrem
    have hgc : g = c := hhead g (List.mem_filter.mpr ⟨hgok, by simp [hhash]⟩) hgrem
    exact hfg (hfc.trans hgc.symm)

theorem second_run_no_groups (s : VaultState)
    (hnames : s.assets.Pairwise (fun a b => a.name ≠ b.name))
    (hunlink : ∀ f ∈ s.assets, f.unlinkOk = true) :
    findDuplicates (hashAllFiles ((deduplicateDirectory s).1.assets)) = [] := by
  by_cases hg : findDuplicates (hashAllFiles s.assets) = []
  · rw [dedup_empty s hg]
    exact hg
  · rw [dedup_assets_nonempty s hg]
    apply findDuplicates_eq_nil
    · intro f g' hf hg' hh
      exact survivor_is_canonical hunlink hf hg' hh
    · exact List.Nodup.sublist (List.filter_sublist _) (nodup_of_distinct_names hnames)

/-! ### Helper for claim C9 -/

theorem canonical_not_key {assets : List AssetFile}
    (hnames : assets.Pairwise (fun a b => a.name ≠ b.name))
    {g : List AssetFile} (hg : g ∈ findDuplicates (hashAllFiles assets))
    {c : AssetFile} {t : List AssetFile} (hsort : sortGroup g = c :: t) :
    c.name ∉ mapKeys (buildReplacementMap (findDuplicates (hashAllFiles assets))) := by
  intro hk
  obtain ⟨g₂, hg₂, c₂, t₂, hsort₂, d, hd, hdname⟩ := mem_buildMap_keys hk
  obtain ⟨h1, hgeq, hglen, _⟩ := mem_findDuplicates hg
  obtain ⟨h2, hg2eq, hg2len, _⟩ := mem_findDuplicates hg₂
  have hcg : c ∈ g := (sortGroup_perm g).mem_iff.mp (by rw [hsort]; simp)
  have hdg₂ : d ∈ g₂ := (sortGroup_perm g₂).mem_iff.mp (by rw [hsort₂]; simp [hd])
  have hcok : c ∈ okAssets assets := List.mem_of_mem_filter (hgeq ▸ hcg)
  have hdok : d ∈ okAssets assets := List.mem_of_mem_filter (hg2eq ▸ hdg₂)
  have hcassets : c ∈ assets := List.mem_of_mem_filter hcok
  have hdassets : d ∈ assets := List.mem_of_mem_filter hdok
  by_cases hcd : c = d
  · have hch : c.hash = h1 := by
      have hx : c ∈ (okAssets assets).filter (fun f => f.hash == h1) := hgeq ▸ hcg
      exact eq_of_beq (List.mem_filter.mp hx).2
    have hdh : d.hash = h2 := by
      have hx : d ∈ (okAssets assets).filter (fun f => f.hash == h2) := hg2eq ▸ hdg₂
      exact eq_of_beq (List.mem_filter.mp hx).2
    have hh12 : h1 = h2 := by rw [← hch, hcd, hdh]
    have hgg : g = g₂ := by rw [hgeq, hg2eq, hh12]
    rw [← hgg, hsort] at hsort₂
    have hc₂ : c₂ = c := (List.cons.injEq _ _ _ _ ▸ hsort₂).1.symm
    have ht₂ : t₂ = t := (List.cons.injEq _ _ _ _ ▸ hsort₂).2.symm
    have hnodup : (sortGroup g).Nodup := by
      apply (sortGroup_perm g).nodup_iff.mpr
      rw [hgeq]
      exact List.Nodup.sublist ((List.filter_sublist _).trans (List.filter_sublist _))
        (nodup_of_distinct_names hnames)
    rw [hsort] at hnodup
    apply (List.nodup_cons.mp hnodup).1
    rw [hcd]
    rw [ht₂] at hd
    exact hd
  · have hsym : Symmetric (fun a b : AssetFile => a.name ≠ b.name) :=
      fun a b h he => h he.symm
    exact (List.Pairwise.forall hsym hnames hcassets hdassets hcd) hdname.symm

/-! ### The claims -/

/-- C1: the spec claims the Garbage Collector deletes a non-canonical
duplicate only if every document referencing it was successfully rewritten,
otherwise retaining the file and reporting a residual error.  The code does
neither: `_remove_duplicates` never consults the per-document outcome of
`_update_markdown_links`, and per-document failures are only logged.  In the
run below the sole document referencing `photo_b.png` fails its read/write
round trip, yet `photo_b.png` is deleted anyway (`duplicates_removed = 1`),
the document still holds the now-dangling reference, and `errors` is empty. -/
theorem c1_gc_deletes_despite_failed_rewrite :
    deduplicateDirectory
        ⟨[⟨"photo_a.png", "h1", 5000, true, true⟩, ⟨"photo_b.png", "h1", 5000, true, true⟩],
         [⟨"note.md", "![[photo_b.png]]", false⟩]⟩
      = (⟨[⟨"photo_a.png", "h1", 5000, true, true⟩],
          [⟨"note.md", "![[photo_b.png]]", false⟩]⟩,
         { total_files := 2, duplicates_found := 1, duplicates_removed := 1,
           bytes_saved := 5000, files_updated := 0, errors := [] }) := by
  decide

/-- C2 counterexample: the claim says the Rewriter replaces the embed-token
syntax `[[oldName]]`, so that a document consisting of `[[photo_b.png]]`
ends up as `[[photo_a.png]]`.  The code's token is `![[oldName]]` (leading
bang included), so the bare-bracket document is left unchanged. -/
theorem c2_bare_token_not_replaced :
    updateDoc [("photo_b.png", "photo_a.png")] "[[photo_b.png]]" = "[[photo_b.png]]" ∧
      ("[[photo_b.png]]" : String) ≠ "[[photo_a.png]]" := by
  decide

/-- C2 (amended): for every mapping entry the Rewriter replaces occurrences of
the full embed token `![[oldName]]` (leading `!` included) by `![[newName]]`,
scanning left to right; a document containing no `!` at all — in particular
one holding only a bare `[[oldName]]` — is left unchanged by this step. -/
theorem c2_embed_token_rewrite (old new : String) (pre post s : List Char)
    (hpre : ∀ i, i < pre.length →
      ¬ ((embedTok old).isPrefixOf ((pre ++ embedTok old ++ post).drop i) = true))
    (hs : '!' ∉ s) :
    embedReplace old new (pre ++ embedTok old ++ post)
        = pre ++ embedTok new ++ pyReplace (embedTok old) (embedTok new) post.length post
      ∧ embedReplace old new s = s := by
  constructor
  · exact pyReplace_split (embedTok old) (embedTok new) (by simp [embedTok]) pre post _
      (le_refl _) hpre
  · exact pyReplace_nomatch _ _ _ _ (noMatch_of_noBang old s hs)

theorem c2_embed_token_rewrite_witness :
    ((∀ i, i < ("x ".data : List Char).length →
        ¬ ((embedTok "photo_b.png").isPrefixOf
            (("x ".data ++ embedTok "photo_b.png" ++ " y".data).drop i) = true)) ∧
      '!' ∉ ("[[photo_b.png]]".data : List Char)) ∧
    (embedReplace "photo_b.png" "photo_a.png"
          ("x ".data ++ embedTok "photo_b.png" ++ " y".data)
        = "x ".data ++ embedTok "photo_a.png"
            ++ pyReplace (embedTok "photo_b.png") (embedTok "photo_a.png")
                (" y".data : List Char).length " y".data
      ∧ embedReplace "photo_b.png" "photo_a.png" "[[photo_b.png]]".data
          = "[[photo_b.png]]".data) :=
  ⟨⟨by decide, by decide⟩,
   c2_embed_token_rewrite "photo_b.png" "photo_a.png" "x ".data " y".data
     "[[photo_b.png]]".data (by decide) (by decide)⟩

/-- C3: for every duplicate group the selected canonical member is a member of
the group that is least under the sort key `(len(name), name)`, and the
canonical name depends only on the multiset of members: any permutation of the
walk order yields the same canonical name. -/
theorem c3_canonical_selection (g g' : List AssetFile) (hperm : g.Perm g') :
    canonicalName g = canonicalName g' ∧
      ∀ c, canonicalFile g = some c → c ∈ g ∧ ∀ x ∈ g, rKey c x = true := by
  constructor
  · by_cases hg : g = []
    · subst hg
      rw [hperm.symm.eq_nil]
    · have hg' : g' ≠ [] := by
        intro h
        exact hg ((h ▸ hperm).eq_nil)
      obtain ⟨c, t, h1⟩ : ∃ c t, sortGroup g = c :: t := by
        cases hs : sortGroup g with
        | nil =>
          exfalso
          have hp := (sortGroup_perm g).symm
          rw [hs] at hp
          exact hg hp.eq_nil
        | cons c t => exact ⟨c, t, rfl⟩
      obtain ⟨c', t', h2⟩ : ∃ c' t', sortGroup g' = c' :: t' := by
        cases hs : sortGroup g' with
        | nil =>
          exfalso
          have hp := (sortGroup_perm g').symm
          rw [hs] at hp
          exact hg' hp.eq_nil
        | cons c' t' => exact ⟨c', t', rfl⟩
      have hcg : c ∈ g := (sortGroup_perm g).mem_iff.mp (by rw [h1]; simp)
      have hc'g' : c' ∈ g' := (sortGroup_perm g').mem_iff.mp (by rw [h2]; simp)
      have hcc' : rKey c c' = true :=
        sortGroup_head_min g c t h1 c' (hperm.mem_iff.mpr hc'g')
      have hc'c : rKey c' c = true :=
        sortGroup_head_min g' c' t' h2 c (hperm.mem_iff.mp hcg)
      have hname := rKey_name_antisymm c c' hcc' hc'c
      simp [canonicalName, canonicalFile, h1, h2, hname]
  · intro c hc
    obtain ⟨t, hsort⟩ : ∃ t, sortGroup g = c :: t := by
      unfold canonicalFile at hc
      cases hs : sortGroup g with
      | nil => rw [hs] at hc; simp at hc
      | cons a t =>
        rw [hs] at hc
        simp at hc
        exact ⟨t, by rw [hc]⟩
    exact ⟨(sortGroup_perm g).mem_iff.mp (by rw [hsort]; simp),
      sortGroup_head_min g c t hsort⟩

theorem c3_canonical_selection_witness :
    (([⟨"photo_b.png", "h1", 5000, true, true⟩,
       ⟨"photo_a.png", "h1", 5000, true, true⟩] : List AssetFile).Perm
      [⟨"photo_a.png", "h1", 5000, true, true⟩,
       ⟨"photo_b.png", "h1", 5000, true, true⟩]) ∧
    canonicalName [⟨"photo_b.png", "h1", 5000, true, true⟩,
        ⟨"photo_a.png", "h1", 5000, true, true⟩]
      = canonicalName [⟨"photo_a.png", "h1", 5000, true, true⟩,
        ⟨"photo_b.png", "h1", 5000, true, true⟩] :=
  ⟨by decide,
   (c3_canonical_selection
     [⟨"photo_b.png", "h1", 5000, true, true⟩, ⟨"photo_a.png", "h1", 5000, true, true⟩]
     [⟨"photo_a.png", "h1", 5000, true, true⟩, ⟨"photo_b.png", "h1", 5000, true, true⟩]
     (by decide)).1⟩

/-- C4: running the consolidation pass a second time on the state produced by
a first run changes nothing: the second report has `duplicates_removed = 0`
and `files_updated = 0`.  Hypotheses: filenames in the store are pairwise
distinct (the spec's flat-store precondition) and every deletion of the first
run succeeds (an already-consolidated store presupposes the first pass's
deletions went through); after the first pass the surviving image files have
pairwise distinct digests, so the second walk finds no duplicate group and
returns the zeroed report before touching any document. -/
theorem c4_second_run_is_noop (s : VaultState)
    (hnames : s.assets.Pairwise (fun a b => a.name ≠ b.name))
    (hunlink : s.assets.all (fun f => f.unlinkOk) = true) :
    (deduplicateDirectory (deduplicateDirectory s).1).2.duplicates_removed = 0 ∧
      (deduplicateDirectory (deduplicateDirectory s).1).2.files_updated = 0 := by
  have hunlink' : ∀ f ∈ s.assets, f.unlinkOk = true := by
    intro f hf
    exact List.all_eq_true.mp hunlink f hf
  exact dedup_zero_of_no_groups _ (second_run_no_groups s hnames hunlink')

theorem c4_second_run_is_noop_witness :
    (([⟨"photo_a.png", "h1", 5000, true, true⟩,
       ⟨"photo_b.png", "h1", 5000, true, true⟩] : List AssetFile).Pairwise
        (fun a b => a.name ≠ b.name) ∧
      ([⟨"photo_a.png", "h1", 5000, true, true⟩,
        ⟨"photo_b.png", "h1", 5000, true, true⟩] : List AssetFile).all
          (fun f => f.unlinkOk) = true) ∧
    ((deduplicateDirectory (deduplicateDirectory
        ⟨[⟨"photo_a.png", "h1", 5000, true, true⟩,
          ⟨"photo_b.png", "h1", 5000, true, true⟩],
         [⟨"note.md", "![[photo_b.png]] and ![alt](photo_a.png)", true⟩]⟩).1).2.duplicates_removed
        = 0 ∧
      (deduplicateDirectory (deduplicateDirectory
        ⟨[⟨"photo_a.png", "h1", 5000, true, true⟩,
          ⟨"photo_b.png", "h1", 5000, true, true⟩],
         [⟨"note.md", "![[photo_b.png]] and ![alt](photo_a.png)", true⟩]⟩).1).2.files_updated
        = 0) :=
  ⟨⟨by decide, by decide⟩,
   c4_second_run_is_noop
     ⟨[⟨"photo_a.png", "h1", 5000, true, true⟩,
       ⟨"photo_b.png", "h1", 5000, true, true⟩],
      [⟨"note.md", "![[photo_b.png]] and ![alt](photo_a.png)", true⟩]⟩
     (by decide) (by decide)⟩

/-- C5: the spec claims the linked-image rewrite matches `oldName` literally
even when it contains regex metacharacters.  The code interpolates `old_name`
into the pattern without `re.escape`, so the `.` of every filename acts as a
regex wildcard: a document whose link target is `photo_bXpng` — which does
not contain the mapped name `photo_b.png` at all — is rewritten to point at
`photo_a.png`. -/
theorem c5_unescaped_pattern_misfires :
    updateDoc [("photo_b.png", "photo_a.png")] "![alt](photo_bXpng)"
        = "![alt](photo_a.png)" ∧
      ¬ ("photo_b.png".data <:+: "![alt](photo_bXpng)".data) := by
  decide

/-- C6 counterexample: the claim says a changed document is written back via
an atomic replace-on-success mechanism, so a crash mid-write never leaves a
partially rewritten document.  The code calls `Path.write_text`, which
truncates in place: the empty string is an observable crash state that is
neither the original text nor the rewritten text. -/
theorem c6_crash_state_neither_old_nor_new :
    "" ∈ writeTextCrashStates
        (updateDoc [("photo_b.png", "photo_a.png")] "![[photo_b.png]]") ∧
      ("" : String) ≠ "![[photo_b.png]]" ∧
      ("" : String) ≠ updateDoc [("photo_b.png", "photo_a.png")] "![[photo_b.png]]" := by
  decide

/-- C6 (amended): the Rewriter writes a changed document back in place with
`Path.write_text` (truncate, then write), not via a temporary file and atomic
rename: whenever the original and the rewritten text are both nonempty, the
empty file is a crash state that is neither of them, while the
write-temp-then-rename scheme the spec describes only ever exposes the
original or the new text. -/
theorem c6_write_text_not_atomic (m : List (String × String)) (oldText : String)
    (h1 : oldText ≠ "") (h2 : updateDoc m oldText ≠ "") :
    ("" ∈ writeTextCrashStates (updateDoc m oldText) ∧
        ("" : String) ≠ oldText ∧ ("" : String) ≠ updateDoc m oldText) ∧
      ∀ st ∈ atomicReplaceCrashStates oldText (updateDoc m oldText),
        st = oldText ∨ st = updateDoc m oldText := by
  refine ⟨⟨?_, fun h => h1 h.symm, fun h => h2 h.symm⟩, ?_⟩
  · apply List.mem_map.mpr
    refine ⟨0, ?_, ?_⟩
    · simp [writeTextCrashStates]
    · rfl
  · intro st hst
    simpa [atomicReplaceCrashStates] using hst

theorem c6_write_text_not_atomic_witness :
    (("![[photo_b.png]]" : String) ≠ "" ∧
      updateDoc [("photo_b.png", "photo_a.png")] "![[photo_b.png]]" ≠ "") ∧
    ("" ∈ writeTextCrashStates
        (updateDoc [("photo_b.png", "photo_a.png")] "![[photo_b.png]]") ∧
      ("" : String) ≠ "![[photo_b.png]]" ∧
      ("" : String) ≠ updateDoc [("photo_b.png", "photo_a.png")] "![[photo_b.png]]") :=
  ⟨⟨by decide, by decide⟩,
   (c6_write_text_not_atomic [("photo_b.png", "photo_a.png")] "![[photo_b.png]]"
     (by decide) (by decide)).1⟩

/-- C7 counterexample: the claim says the Asset Ingestor writes the extracted
bytes only if no file with the constructed name exists, with no write when it
does.  `_process_images` calls `write_bytes` unconditionally: starting from a
store that already holds exactly the constructed name, processing the image
still issues a write of that name. -/
theorem c7_write_despite_existing_file :
    (processImages "note" true [ImgSrc.dataUri true "0123456789abcdef" ".png"]
        [hashedFilename "note" "0123456789abcdef" ".png"]).writes
      = [hashedFilename "note" "0123456789abcdef" ".png"] := by
  decide

/-- C7 (amended): for every successfully decoded or fetched image the
constructed store name is `<document-stem>_<12-hex-digit-hash-prefix><ext>`
and the bytes are written unconditionally — one `write_bytes` per success,
whether or not the name is already present in the store. -/
theorem c7_name_shape_and_unconditional_write (base hh ext : String) (d : Bool)
    (st : ProcState) :
    (hashedFilename base hh ext).data
        = base.data ++ '_' :: (hh.data.take 12 ++ ext.data) ∧
      (processImage base d st (ImgSrc.dataUri true hh ext)).writes
        = st.writes ++ [hashedFilename base hh ext] ∧
      (processImage base d st (ImgSrc.remote true hh ext)).writes
        = (if d then st.writes ++ [hashedFilename base hh ext] else st.writes) := by
  refine ⟨?_, ?_, ?_⟩
  · simp [hashedFilename, String.data_append]
  · simp [processImage]
  · cases d <;> simp [processImage]

/-- C8 counterexample: the claim says every non-fatal failure is accumulated
into the report's error list.  In the run below three per-item failures occur
— hashing `broken.png` raises, the only markdown file fails its read/write,
and unlinking `photo_b.png` raises — yet the run completes, mutates nothing,
and returns `errors = []`: per-item failures are only logged, never
accumulated. -/
theorem c8_per_item_failures_leave_errors_empty :
    deduplicateDirectory
        ⟨[⟨"photo_a.png", "h1", 5000, true, true⟩,
          ⟨"photo_b.png", "h1", 5000, true, false⟩,
          ⟨"broken.png", "h2", 400, false, true⟩],
         [⟨"note.md", "![[photo_b.png]]", false⟩]⟩
      = (⟨[⟨"photo_a.png", "h1", 5000, true, true⟩,
           ⟨"photo_b.png", "h1", 5000, true, false⟩,
           ⟨"broken.png", "h2", 400, false, true⟩],
          [⟨"note.md", "![[photo_b.png]]", false⟩]⟩,
         { total_files := 2, duplicates_found := 1, duplicates_removed := 0,
           bytes_saved := 0, files_updated := 0, errors := [] }) := by
  decide

/-- C8 (amended): no modelled condition is fatal — the batch always completes
and returns a report — but per-item hash, read/write and unlink failures are
only logged: the report's `errors` list is always empty (it would receive
only the message of an exception reaching the top-level handler, which
returns a partial result rather than aborting). -/
theorem c8_errors_always_empty (s : VaultState) :
    (deduplicateDirectory s).2.errors = [] := by
  cases h : (findDuplicates (hashAllFiles s.assets)).isEmpty <;>
    simp [deduplicateDirectory, h]

/-- C9: under the spec's flat-store precondition (pairwise distinct
filenames), the replacement map built by the Canonical Selector has no
chains: no value of the map is also a key; the canonical member of every
duplicate group never appears among the keys, and consequently the Garbage
Collector — which deletes exactly the group members whose name is a key —
never deletes a canonical file. -/
theorem c9_no_chains_canonical_never_deleted (assets : List AssetFile)
    (hnames : assets.Pairwise (fun a b => a.name ≠ b.name)) :
    (∀ k v, (k, v) ∈ buildReplacementMap (findDuplicates (hashAllFiles assets)) →
        v ∉ mapKeys (buildReplacementMap (findDuplicates (hashAllFiles assets)))) ∧
      ∀ g ∈ findDuplicates (hashAllFiles assets), ∀ c,
        canonicalFile g = some c →
          c.name ∉ mapKeys (buildReplacementMap (findDuplicates (hashAllFiles assets))) ∧
          c ∉ filesToRemove (findDuplicates (hashAllFiles assets))
              (buildReplacementMap (findDuplicates (hashAllFiles assets))) := by
  constructor
  · intro k v hkv hvk
    obtain ⟨g, hg, c, t, hsort, d, hd, he⟩ := buildMap_mem hkv
    have hv : v = c.name := congrArg Prod.snd he
    rw [hv] at hvk
    exact canonical_not_key hnames hg hsort hvk
  · intro g hg c hc
    obtain ⟨t, hsort⟩ : ∃ t, sortGroup g = c :: t := by
      unfold canonicalFile at hc
      cases hs : sortGroup g with
      | nil => rw [hs] at hc; simp at hc
      | cons a t =>
        rw [hs] at hc
        simp at hc
        exact ⟨t, by rw [hc]⟩
    refine ⟨canonical_not_key hnames hg hsort, ?_⟩
    intro hmem
    obtain ⟨g₂, hg₂, hcg₂, hkeys⟩ := mem_filesToRemove.mp hmem
    exact canonical_not_key hnames hg hsort hkeys

theorem c9_no_chains_canonical_never_deleted_witness :
    (([⟨"photo_a.png", "h1", 5000, true, true⟩,
       ⟨"photo_b.png", "h1", 5000, true, true⟩] : List AssetFile).Pairwise
        (fun a b => a.name ≠ b.name)) ∧
    ("photo_a.png" : String) ∉ mapKeys (buildReplacementMap (findDuplicates (hashAllFiles
      [⟨"photo_a.png", "h1", 5000, true, true⟩,
       ⟨"photo_b.png", "h1", 5000, true, true⟩]))) :=
  ⟨by decide,
   ((c9_no_chains_canonical_never_deleted
       [⟨"photo_a.png", "h1", 5000, true, true⟩,
        ⟨"photo_b.png", "h1", 5000, true, true⟩] (by decide)).2
     ((okAssets [⟨"photo_a.png", "h1", 5000, true, true⟩,
        ⟨"photo_b.png", "h1", 5000, true, true⟩]).filter
          (fun f => f.hash == "h1"))
     (by decide) ⟨"photo_a.png", "h1", 5000, true, true⟩ (by decide)).1⟩

/-- C10: the `total_files` counter of the returned report equals the number of
recognized image files whose hashing succeeded during the index walk, and a
file failing that guard (wrong extension or hashing error) is excluded from
every later phase: it belongs to no duplicate group, its name is never a key
of the replacement map (given the flat-store distinct-names precondition),
and it is never among the files the Garbage Collector deletes. -/
theorem c10_total_files_counts_hashed_images (s : VaultState) (f : AssetFile)
    (hnames : s.assets.Pairwise (fun a b => a.name ≠ b.name))
    (hf : f ∈ s.assets) (hbad : (isImageName f.name && f.hashOk) = false) :
    (deduplicateDirectory s).2.total_files = (okAssets s.assets).length ∧
      (∀ g ∈ findDuplicates (hashAllFiles s.assets), f ∉ g) ∧
      f.name ∉ mapKeys (buildReplacementMap (findDuplicates (hashAllFiles s.assets))) ∧
      f ∉ filesToRemove (findDuplicates (hashAllFiles s.assets))
          (buildReplacementMap (findDuplicates (hashAllFiles s.assets))) := by
  have hfok : f ∉ okAssets s.assets := by
    intro hmem
    have hc := (List.mem_filter.mp hmem).2
    rw [hbad] at hc
    simp at hc
  refine ⟨?_, ?_, ?_, ?_⟩
  · rw [dedup_total, total_files_eq]
  · intro g hg hfg
    obtain ⟨hh, rfl, _, _⟩ := mem_findDuplicates hg
    exact hfok (List.mem_of_mem_filter hfg)
  · intro hk
    obtain ⟨g, hg, c, t, hsort, d, hd, hdname⟩ := mem_buildMap_keys hk
    obtain ⟨hh, hgeq, _, _⟩ := mem_findDuplicates hg
    have hdg : d ∈ g := (sortGroup_perm g).mem_iff.mp (by rw [hsort]; simp [hd])
    have hdok : d ∈ okAssets s.assets := List.mem_of_mem_filter (hgeq ▸ hdg)
    have hdassets : d ∈ s.assets := List.mem_of_mem_filter hdok
    have hdf : d ≠ f := fun he => hfok (he ▸ hdok)
    have hsym : Symmetric (fun a b : AssetFile => a.name ≠ b.name) :=
      fun a b h he => h he.symm
    exact (List.Pairwise.forall hsym hnames hdassets hf hdf) hdname
  · intro hmem
    obtain ⟨g, hg, hfg, _⟩ := mem_filesToRemove.mp hmem
    obtain ⟨hh, rfl, _, _⟩ := mem_findDuplicates hg
    exact hfok (List.mem_of_mem_filter hfg)

theorem c10_total_files_counts_hashed_images_witness :
    (([⟨"photo_a.png", "h1", 5000, true, true⟩,
       ⟨"photo_b.png", "h1", 5000, true, true⟩,
       ⟨"broken.png", "h2", 400, false, true⟩] : List AssetFile).Pairwise
        (fun a b => a.name ≠ b.name) ∧
      (⟨"broken.png", "h2", 400, false, true⟩ : AssetFile) ∈
        ([⟨"photo_a.png", "h1", 5000, true, true⟩,
          ⟨"photo_b.png", "h1", 5000, true, true⟩,
          ⟨"broken.png", "h2", 400, false, true⟩] : List AssetFile) ∧
      (isImageName (⟨"broken.png", "h2", 400, false, true⟩ : AssetFile).name &&
          (⟨"broken.png", "h2", 400, false, true⟩ : AssetFile).hashOk) = false) ∧
    ((deduplicateDirectory
        ⟨[⟨"photo_a.png", "h1", 5000, true, true⟩,
          ⟨"photo_b.png", "h1", 5000, true, true⟩,
          ⟨"broken.png", "h2", 400, false, true⟩], []⟩).2.total_files
        = (okAssets [⟨"photo_a.png", "h1", 5000, true, true⟩,
            ⟨"photo_b.png", "h1", 5000, true, true⟩,
            ⟨"broken.png", "h2", 400, false, true⟩]).length ∧
      ("broken.png" : String) ∉ mapKeys (buildReplacementMap (findDuplicates (hashAllFiles
          [⟨"photo_a.png", "h1", 5000, true, true⟩,
           ⟨"photo_b.png", "h1", 5000, true, true⟩,
           ⟨"broken.png", "h2", 400, false, true⟩]))) ∧
      (⟨"broken.png", "h2", 400, false, true⟩ : AssetFile) ∉
        filesToRemove
          (findDuplicates (hashAllFiles
            [⟨"photo_a.png", "h1", 5000, true, true⟩,
             ⟨"photo_b.png", "h1", 5000, true, true⟩,
             ⟨"broken.png", "h2", 400, false, true⟩]))
          (buildReplacementMap (findDuplicates (hashAllFiles
            [⟨"photo_a.png", "h1", 5000, true, true⟩,
             ⟨"photo_b.png", "h1", 5000, true, true⟩,
             ⟨"broken.png", "h2", 400, false, true⟩])))) := by
  have h := c10_total_files_counts_hashed_images
    ⟨[⟨"photo_a.png", "h1", 5000, true, true⟩,
      ⟨"photo_b.png", "h1", 5000, true, true⟩,
      ⟨"broken.png", "h2", 400, false, true⟩], []⟩
    ⟨"broken.png", "h2", 400, false, true⟩
    (by decide) (by decide) (by decide)
  exact ⟨⟨by decide, by decide, by decide⟩, h.1, h.2.2.1, h.2.2.2⟩
